import Mathlib

/-!
Verification development for the subtiled diagonal-gain StefCal solver
(`Calico/OMS/StefCal/SubtiledDiagGain.py`).

Modelling conventions used throughout this file:

* The source computes with complex floating-point numpy arrays.  We embed the
  arithmetic exactly, over complex numbers with rational components (`Cplx`).
  Consequently the complex modulus `abs z` (an irrational square root in
  general) is represented by its square `Cplx.normSq z = re² + im²`; every
  comparison `abs z < eps` of the source is embedded as
  `normSq z < epsilonSq` where `epsilonSq` stands for `eps²` (the map
  `x ↦ x²` is strictly monotone on nonnegative reals, so the comparisons
  agree), and every recorded maximum of moduli is represented by the maximum
  of the squared moduli.
* A numpy array of shape `N1,...,Nk` is embedded as a function from the
  multi-index type `(i : Fin n) → Fin (N i)` to values.  The source's
  `reshape` of datashape `N1,...,Nk` into the subtiled shape
  `K1,M1,K2,M2,...` (row-major) sends the multi-index
  `(k1,m1,...,kn,mn)` to the data multi-index `(k1*M1+m1,...)`; we represent
  a subtiled array directly as a function of the pair (gain multi-index,
  tile multi-index), which carries exactly the same values.
* Python dictionaries whose key set is fixed are embedded as a `Finset` of
  keys together with a total function; the function is only consulted on the
  key set (lookups with a default, `dict.get(key, default)`, are embedded
  explicitly).
-/

/-- Complex numbers with exact rational components, embedding the complex
floating-point scalars of the source. -/
structure Cplx where
  re : ℚ
  im : ℚ
deriving DecidableEq

namespace Cplx

@[ext] theorem ext {a b : Cplx} (hre : a.re = b.re) (him : a.im = b.im) : a = b := by
  cases a; cases b; simp_all

instance : Zero Cplx := ⟨⟨0, 0⟩⟩
instance : One Cplx := ⟨⟨1, 0⟩⟩
instance : Add Cplx := ⟨fun a b => ⟨a.re + b.re, a.im + b.im⟩⟩
instance : Neg Cplx := ⟨fun a => ⟨-a.re, -a.im⟩⟩
instance : Mul Cplx := ⟨fun a b => ⟨a.re * b.re - a.im * b.im, a.re * b.im + a.im * b.re⟩⟩

@[simp] theorem zero_re : (0 : Cplx).re = 0 := rfl
@[simp] theorem zero_im : (0 : Cplx).im = 0 := rfl
@[simp] theorem one_re : (1 : Cplx).re = 1 := rfl
@[simp] theorem one_im : (1 : Cplx).im = 0 := rfl
@[simp] theorem add_re (a b : Cplx) : (a + b).re = a.re + b.re := rfl
@[simp] theorem add_im (a b : Cplx) : (a + b).im = a.im + b.im := rfl
@[simp] theorem neg_re (a : Cplx) : (-a).re = -a.re := rfl
@[simp] theorem neg_im (a : Cplx) : (-a).im = -a.im := rfl
@[simp] theorem mul_re (a b : Cplx) : (a * b).re = a.re * b.re - a.im * b.im := rfl
@[simp] theorem mul_im (a b : Cplx) : (a * b).im = a.re * b.im + a.im * b.re := rfl

instance : CommRing Cplx where
  nsmul := nsmulRec
  zsmul := zsmulRec
  add_assoc a b c := by ext <;> simp <;> ring
  zero_add a := by ext <;> simp
  add_zero a := by ext <;> simp
  add_comm a b := by ext <;> simp <;> ring
  mul_assoc a b c := by ext <;> simp <;> ring
  one_mul a := by ext <;> simp
  mul_one a := by ext <;> simp
  left_distrib a b c := by ext <;> simp <;> ring
  right_distrib a b c := by ext <;> simp <;> ring
  zero_mul a := by ext <;> simp
  mul_zero a := by ext <;> simp
  mul_comm a b := by ext <;> simp <;> ring
  neg_add_cancel a := by ext <;> simp

/-- Complex conjugation, embedding `numpy.conj`. -/
def conj (z : Cplx) : Cplx := ⟨z.re, -z.im⟩

/-- The squared modulus `re² + im²`, embedding `abs(z)**2` of the source
exactly (the square of the complex modulus is rational). -/
def normSq (z : Cplx) : ℚ := z.re * z.re + z.im * z.im

/-- Division of a complex value by a real scalar, embedding numpy's
elementwise `complex_array / real_array` (componentwise). -/
def divQ (z : Cplx) (r : ℚ) : Cplx := ⟨z.re / r, z.im / r⟩

/-- Complex reciprocal `1/z`, embedding Python's `1/complex`. -/
def inv (z : Cplx) : Cplx := ⟨z.re / normSq z, -(z.im / normSq z)⟩

/-- Embedding of a real scalar used in complex arithmetic (such as the
regularization factor added to a gain). -/
def ofQ (r : ℚ) : Cplx := ⟨r, 0⟩

@[simp] theorem conj_one : conj 1 = 1 := by ext <;> simp [conj]

end Cplx

/-- The shape configuration of the solver: `datashape` (`N`) and `subtiling`
(`M`), one entry per axis, with the spec's §3 precondition that each
subtiling factor is positive and divides the corresponding data extent
(`gainshape = datashape / subtiling` "must divide evenly — this is a
precondition").  An equal-length pair of tuples is represented as a pair of
functions on `Fin n`. -/
structure Tiling (n : ℕ) where
  N : Fin n → ℕ
  M : Fin n → ℕ
  hdvd : ∀ i, M i ∣ N i
  hpos : ∀ i, 0 < M i

namespace Tiling

/-- The gain shape `gainshape`: elementwise `datashape / subtiling` (source line 50), in the
valid (dividing) configuration. -/
def K {n : ℕ} (t : Tiling n) (i : Fin n) : ℕ := t.N i / t.M i

theorem K_mul_M {n : ℕ} (t : Tiling n) (i : Fin n) : t.K i * t.M i = t.N i :=
  Nat.div_mul_cancel (t.hdvd i)

end Tiling

/-- Multi-index into a full-resolution data array of shape `datashape`. -/
abbrev DIdx {n : ℕ} (t : Tiling n) := (i : Fin n) → Fin (t.N i)

/-- Multi-index into a gain array of shape `gainshape`. -/
abbrev GIdx {n : ℕ} (t : Tiling n) := (i : Fin n) → Fin (t.K i)

/-- Multi-index ranging over one subtile (the `M1,M2,...` axes). -/
abbrev TIdx {n : ℕ} (t : Tiling n) := (i : Fin n) → Fin (t.M i)

/-- A full-resolution complex array (shape `datashape`). -/
abbrev DArr {n : ℕ} (t : Tiling n) := DIdx t → Cplx

/-- A gain-grid complex array (shape `gainshape`). -/
abbrev GArr {n : ℕ} (t : Tiling n) := GIdx t → Cplx

theorem combine_lt {n : ℕ} (t : Tiling n) (i : Fin n) (a : Fin (t.K i)) (b : Fin (t.M i)) :
    a.val * t.M i + b.val < t.N i := by
  have h1 : a.val * t.M i + b.val < (a.val + 1) * t.M i := by
    have := b.isLt
    calc a.val * t.M i + b.val < a.val * t.M i + t.M i := by omega
    _ = (a.val + 1) * t.M i := by ring
  have h2 : (a.val + 1) * t.M i ≤ t.K i * t.M i :=
    Nat.mul_le_mul_right _ (Nat.succ_le_of_lt a.isLt)
  have h3 := t.K_mul_M i
  omega

/-- The data multi-index addressed by gain cell `k` and within-tile offset
`mt`: axis `i` holds `k i * M i + mt i`.  This is exactly where the source's
row-major `reshape` of `datashape` into `subtiled_shape = K1,M1,K2,M2,...`
places the element `(k1,mt1,k2,mt2,...)`. -/
def combine {n : ℕ} (t : Tiling n) (k : GIdx t) (mt : TIdx t) : DIdx t :=
  fun i => ⟨(k i).val * t.M i + (mt i).val, combine_lt t i (k i) (mt i)⟩

theorem split_div_lt {n : ℕ} (t : Tiling n) (i : Fin n) (a : Fin (t.N i)) :
    a.val / t.M i < t.K i := by
  rw [Nat.div_lt_iff_lt_mul (t.hpos i)]
  have h := t.K_mul_M i
  have := a.isLt
  omega

/-- The operation `tile_data(x)`: reshape a full-resolution array into the subtiled layout
(source lines 94-95); here the subtiled array is the function of the pair
(gain cell, tile offset). -/
def tile_data {n : ℕ} {α : Type} (t : Tiling n) (x : DIdx t → α) :
    GIdx t → TIdx t → α :=
  fun k mt => x (combine t k mt)

/-- The operation `untile_data(x)`: the inverse reshape, back to full resolution
(source lines 96-97). -/
def untile_data {n : ℕ} {α : Type} (t : Tiling n) (y : GIdx t → TIdx t → α) :
    DIdx t → α :=
  fun a => y (fun i => ⟨(a i).val / t.M i, split_div_lt t i (a i)⟩)
             (fun i => ⟨(a i).val % t.M i, Nat.mod_lt _ (t.hpos i)⟩)

/-- The source's `tile_gain(x)` (lines 98-99) returns the numpy view
`x[:,newaxis,...]`, whose inserted tile axes have size 1
(`tile_gain_view` below embeds that view literally).  Everywhere the solver
consumes this view it is elementwise-multiplied against a subtiled array of
full tile extent (`mh`, `dmh`, the `corrupt`/`correct` products), where
numpy broadcasting replicates its single element across each tile;
`tile_gain` here is that broadcast expansion — the function of the full
(gain cell, tile offset) pair — which is value-exact in all those
multiplication positions. -/
def tile_gain {n : ℕ} {α : Type} (t : Tiling n) (g : GIdx t → α) :
    GIdx t → TIdx t → α :=
  fun k _ => g k

/-- The view `x[:,newaxis,...]` returned by the source's `tile_gain` taken
with its literal axes: each inserted tile axis has extent 1, so its tile
multi-index ranges over `Fin 1` on every axis.  This is the array
`reduce_subtiles` receives when the two operations are composed directly,
without an intervening broadcast. -/
def tile_gain_view {n : ℕ} {α : Type} (t : Tiling n) (g : GIdx t → α) :
    GIdx t → ((i : Fin n) → Fin 1) → α :=
  fun k _ => g k

/-- The operation `reduce_subtiles(x)`: sum every tile axis of the subtiled
layout it receives, collapsing it onto the gain grid (source lines 100-104).
The source sums axes `1,3,...` of its argument whatever their extents are,
so the definition is over an arbitrary per-axis tile extent `e`: for the
reshape of a full data array `e = M` (the `TIdx` layout), while for the
size-1-axes view returned by `tile_gain` the extent is 1 on every axis. -/
def reduce_subtiles {n : ℕ} {β : Type} [AddCommMonoid β] (t : Tiling n)
    {e : Fin n → ℕ} (y : GIdx t → ((i : Fin n) → Fin (e i)) → β) : GIdx t → β :=
  fun k => ∑ mt, y k mt

theorem untile_tile {n : ℕ} {α : Type} (t : Tiling n) (x : DIdx t → α) :
    untile_data t (tile_data t x) = x := by
  funext a
  unfold untile_data tile_data combine
  congr 1
  funext i
  apply Fin.ext
  show (a i).val / t.M i * t.M i + (a i).val % t.M i = (a i).val
  rw [Nat.mul_comm]
  exact Nat.div_add_mod _ _

/-- A 4-slot correlation sequence for one baseline: slot `i*2+j` holds either
an array of shape `datashape` or `none`, embedding the scalar-`0` null
sentinel of the source (`is_null` of the `MatrixOps` module). -/
abbrev Corrs {n : ℕ} (t : Tiling n) := Fin 4 → Option (DArr t)

/-- A data/model mapping: baseline key to correlation sequence; `none` means
the key is absent from the Python dictionary. -/
abbrev VisMap {n : ℕ} (t : Tiling n) (A : Type) := A × A → Option (Corrs t)

/-- Lookup `vm[pq]`.  The source raises `KeyError` on a missing key; the
default is never consulted in any theorem below (baselines are only
dereferenced at keys the membership test found in the mapping). -/
def getVis {n : ℕ} {t : Tiling n} {A : Type} (vm : VisMap t A) (pq : A × A) : Corrs t :=
  (vm pq).getD (fun _ => none)

/-- The membership test `pq in data`. -/
def dataDom {n : ℕ} {t : Tiling n} {A : Type} (vm : VisMap t A) : A × A → Bool :=
  fun pq => (vm pq).isSome

/-- The value of one correlation slot as an array: a null slot is the scalar
`0`, which broadcasts to the all-zero array in every arithmetic context in
which the solver uses it. -/
def corrV {n : ℕ} {t : Tiling n} (c : Option (DArr t)) : DArr t :=
  c.getD (fun _ => 0)

/-- Elementwise `numpy.conj` on a data array. -/
def conjD {n : ℕ} {t : Tiling n} (x : DArr t) : DArr t := fun a => Cplx.conj (x a)

/-- Helper of the source (lines 14-25): resolve antennas `p,q` into the
equation key present in `data` together with the orientation.  The returned
flag is `false` when `(p,q)` itself is in `data` (the identity relation) and
`true` when the swapped key `(q,p)` is used (conjugate orientation). -/
def pq_direct_conjugate {A : Type} (p q : A) (dom : A × A → Bool) :
    Option ((A × A) × Bool) :=
  if dom (p, q) then some ((p, q), false)
  else if dom (q, p) then some ((q, p), true)
  else none

/-- The `direct` conversion function returned by `pq_direct_conjugate`:
the identity for the direct orientation, conjugation for the swapped one. -/
def direct_fn {n : ℕ} {t : Tiling n} (sw : Bool) (x : DArr t) : DArr t :=
  if sw then conjD x else x

/-- The `conjugate` conversion function returned by `pq_direct_conjugate`:
conjugation for the direct orientation, the identity for the swapped one. -/
def conjugate_fn {n : ℕ} {t : Tiling n} (sw : Bool) (x : DArr t) : DArr t :=
  if sw then x else conjD x

/-- The correlation slot `i*2+j`. -/
def idx4 (i j : Fin 2) : Fin 4 := ⟨i.val * 2 + j.val, by omega⟩

/-- Modelled from the spec: `IJ2x2` of the `MatrixOps` module (whose source
is not among the files here) enumerates the four correlation slots in the
order indexed by `i*2+j` for `i,j ∈ {0,1}` (spec §3: "4 correlation arrays
indexed `i*2+j` for `i,j ∈ {0,1}`"). -/
def IJ2x2 (c : Fin 4) : Fin 2 × Fin 2 :=
  (⟨c.val / 2, by omega⟩, ⟨c.val % 2, by omega⟩)

/-- The state of a `SubtiledDiagGain` object.  The gain dictionary (whose key
set is always `parms`) is embedded as the `Finset` `parms` together with a
total function `gain` consulted only on `parms`; `unity` embeds the
`_unity` member.  `hasInvCaches` records whether the `_gpgq_inv`/`_gp_inv`
attributes exist (they are created by `iterate`, lines 110-111, not by the
constructor); the memoization content of the caches is semantically
transparent and is not represented.  `num_converged`, `gaindiffSq` and
`maxdiffSq` embed the same-named diagnostic attributes (squared-modulus
encoding); before the first `iterate` call the attributes do not exist on
the Python object, and the inert initial values stored here are never
consulted. -/
structure GState {n : ℕ} (t : Tiling n) (A : Type) where
  solve_ifrs : Finset (A × A)
  epsilonSq : ℚ
  regularization_factor : ℚ
  parms : Finset (A × Fin 2)
  gain : A × Fin 2 → GArr t
  unity : GArr t
  convergence_target : ℤ
  hasInvCaches : Bool
  num_converged : ℕ
  gaindiffSq : A × Fin 2 → WithBot ℚ
  maxdiffSq : WithBot ℚ

/-- Python 2 `int()` on a rational: truncation toward zero. -/
def pyInt (q : ℚ) : ℤ := if 0 ≤ q then ⌊q⌋ else -⌊-q⌋

/-- The three runtime shapes of the constructor's `init_value` argument:
the numeric `1`, a previous-solution dictionary (an association list of gain
keys to either a full gain-shaped array or a 1-D array), or another scalar. -/
inductive InitValue {n : ℕ} (t : Tiling n) (A : Type) where
  | one : InitValue t A
  | dict : List ((A × Fin 2) × (GArr t ⊕ (ℕ → Cplx))) → InitValue t A
  | scalar : Cplx → InitValue t A

/-- The contents a buffer holds after the in-place assignment of one supplied
`init_value` entry (source lines 77-80): a full array replaces the whole
buffer (`g[...] = value`); a 1-D value is assigned through
`g[numpy.newaxis,...] = value`, which numpy broadcasts along the buffer's
last axis (the value varies with the last gain axis and is constant along
all leading axes). -/
def writeVal {n : ℕ} (t : Tiling n) (v : GArr t ⊕ (ℕ → Cplx)) : GArr t :=
  match v with
  | Sum.inl g => g
  | Sum.inr v1 => fun k => v1 (if h : 0 < n then (k ⟨n - 1, by omega⟩).val else 0)

/-- The constructor (source lines 43-91).  `parms` is the union over the
solve set of both antennas with both polarizations.  In the dictionary
branch the source first binds every key of the gain dictionary to the *same*
array object `self._unity` (line 73) and then assigns supplied entries in
place (lines 74-80); all keys therefore alias a single buffer, which ends up
holding the last value written into it (supplied entries whose key is not a
gain key are skipped), and `_unity` is that same buffer.  The scalar branch
fills a fresh shared array with the scalar, leaving `_unity` all ones. -/
def mkGain {n : ℕ} {A : Type} [DecidableEq A] (t : Tiling n)
    (solve_ifrs : Finset (A × A)) (epsilonSq : ℚ) (conv_quota : ℚ) (reg : ℚ)
    (init : InitValue t A) : GState t A :=
  let parms : Finset (A × Fin 2) :=
    solve_ifrs.biUnion (fun pq => {(pq.1, 0), (pq.1, 1), (pq.2, 0), (pq.2, 1)})
  let unityArr : GArr t := fun _ => 1
  let gu : (A × Fin 2 → GArr t) × GArr t :=
    match init with
    | InitValue.one => (fun _ => unityArr, unityArr)
    | InitValue.dict entries =>
        let buf := entries.foldl
          (fun b e => if e.1 ∈ parms then writeVal t e.2 else b) unityArr
        (fun _ => buf, buf)
    | InitValue.scalar c => (fun _ => (fun _ => c), unityArr)
  let total_parms : ℕ := parms.card * ∏ i : Fin n, t.K i
  { solve_ifrs := solve_ifrs
    epsilonSq := epsilonSq
    regularization_factor := reg
    parms := parms
    gain := gu.1
    unity := gu.2
    convergence_target := pyInt ((total_parms : ℚ) * conv_quota)
    hasInvCaches := false
    num_converged := 0
    gaindiffSq := fun _ => ⊥
    maxdiffSq := ⊥ }

/-- One inner-loop term of half-step A (source lines 121-134), for outer key
`(p,i)` and inner key `qj`: the pair of contributions
`(reduce_subtiles(dmh), reduce_subtiles(mh2))`, or zero when the baseline is
absent from `data` or outside the solve set. -/
def stepATerm {n : ℕ} {A : Type} [DecidableEq A] {t : Tiling n} (st : GState t A)
    (data model : VisMap t A) (p : A) (i : Fin 2) (qj : A × Fin 2) :
    (GIdx t → Cplx) × (GIdx t → ℚ) :=
  match pq_direct_conjugate p qj.1 (dataDom data) with
  | none => (fun _ => 0, fun _ => 0)
  | some (pq, sw) =>
    if pq ∈ st.solve_ifrs then
      let m : DArr t := conjugate_fn sw (corrV (getVis model pq (idx4 i qj.2)))
      let d : DArr t := direct_fn sw (corrV (getVis data pq (idx4 i qj.2)))
      let mh : GIdx t → TIdx t → Cplx :=
        fun k mt => tile_data t m k mt * tile_gain t (st.gain qj) k mt
      (reduce_subtiles t (fun k mt => tile_data t d k mt * mh k mt),
       reduce_subtiles t (fun k mt => Cplx.normSq (mh k mt)))
    else (fun _ => 0, fun _ => 0)

/-- The accumulation loop of half-step A for one outer key: starting from the
zero accumulators (`sum_reim`, `sum_sq`), add each inner key's contribution
(source lines 119-134).  The Python loop runs over the gain dictionary's
keys in an arbitrary order; since addition is commutative the loop is the
sum over the key set. -/
def stepASums {n : ℕ} {A : Type} [DecidableEq A] {t : Tiling n} (st : GState t A)
    (data model : VisMap t A) (p : A) (i : Fin 2) :
    (GIdx t → Cplx) × (GIdx t → ℚ) :=
  (fun k => ∑ qj ∈ st.parms, (stepATerm st data model p i qj).1 k,
   fun k => ∑ qj ∈ st.parms, (stepATerm st data model p i qj).2 k)

/-- Half-step A ("solve for p", source lines 117-147): the candidate gains
`gain1`.  Elementwise, `(sum_reim/sum_sq + gain)/2`, except that elements
with `sum_sq == 0` retain the old gain (the mask assignment of lines
143-145). -/
def halfStepA {n : ℕ} {A : Type} [DecidableEq A] {t : Tiling n} (st : GState t A)
    (data model : VisMap t A) : A × Fin 2 → GArr t :=
  fun pp =>
    let s := stepASums st data model pp.1 pp.2
    fun k =>
      if s.2 k = 0 then st.gain pp k
      else Cplx.divQ (Cplx.divQ (s.1 k) (s.2 k) + st.gain pp k) 2

/-- One inner-loop term of half-step B (source lines 157-171), for outer key
`(q,j)` and inner key `pi`: the orientation is resolved as
`pq_direct_conjugate(p,q,data)` with `p` the inner antenna, the conversion
roles of `m` and `d` are swapped relative to half-step A (line 160), and the
gain factor is the half-step-A value `gain1[p,i]` (line 161). -/
def stepBTerm {n : ℕ} {A : Type} [DecidableEq A] {t : Tiling n} (st : GState t A)
    (data model : VisMap t A) (gain1 : A × Fin 2 → GArr t) (q : A) (j : Fin 2)
    (pi : A × Fin 2) : (GIdx t → Cplx) × (GIdx t → ℚ) :=
  match pq_direct_conjugate pi.1 q (dataDom data) with
  | none => (fun _ => 0, fun _ => 0)
  | some (pq, sw) =>
    if pq ∈ st.solve_ifrs then
      let m : DArr t := direct_fn sw (corrV (getVis model pq (idx4 pi.2 j)))
      let d : DArr t := conjugate_fn sw (corrV (getVis data pq (idx4 pi.2 j)))
      let mh : GIdx t → TIdx t → Cplx :=
        fun k mt => tile_data t m k mt * tile_gain t (gain1 pi) k mt
      (reduce_subtiles t (fun k mt => tile_data t d k mt * mh k mt),
       reduce_subtiles t (fun k mt => Cplx.normSq (mh k mt)))
    else (fun _ => 0, fun _ => 0)

/-- The accumulation loop of half-step B for one outer key (source lines
155-171), as the sum of the inner-key contributions. -/
def stepBSums {n : ℕ} {A : Type} [DecidableEq A] {t : Tiling n} (st : GState t A)
    (data model : VisMap t A) (gain1 : A × Fin 2 → GArr t) (q : A) (j : Fin 2) :
    (GIdx t → Cplx) × (GIdx t → ℚ) :=
  (fun k => ∑ pi ∈ st.parms, (stepBTerm st data model gain1 q j pi).1 k,
   fun k => ∑ pi ∈ st.parms, (stepBTerm st data model gain1 q j pi).2 k)

/-- Half-step B ("solve for q", source lines 153-184): produces `gain2` from
the half-step-A values `gain1`, with the same masked update rule. -/
def halfStepB {n : ℕ} {A : Type} [DecidableEq A] {t : Tiling n} (st : GState t A)
    (data model : VisMap t A) (gain1 : A × Fin 2 → GArr t) : A × Fin 2 → GArr t :=
  fun qj =>
    let s := stepBSums st data model gain1 qj.1 qj.2
    fun k =>
      if s.2 k = 0 then gain1 qj k
      else Cplx.divQ (Cplx.divQ (s.1 k) (s.2 k) + gain1 qj k) 2

/-- One call of `iterate(data, model)` (source lines 106-197): half-step A,
half-step B from A's output, convergence bookkeeping against the
pre-iteration gains, replacement of the gain dictionary by `gain2`, and the
returned convergence flag `num_converged >= convergence_target`.  The loop
of lines 191-194 accumulates `num_converged` by `+` and the per-key maxima
by `max` over the keys in arbitrary dictionary order, so it is embedded as
the sum respectively the supremum over the key set; `iterate` also creates
the `_gpgq_inv`/`_gp_inv` cache attributes (lines 110-111). -/
def iterate {n : ℕ} {A : Type} [DecidableEq A] {t : Tiling n} (st : GState t A)
    (data model : VisMap t A) : GState t A × Bool :=
  let gain1 := halfStepA st data model
  let gain2 := halfStepB st data model gain1
  let deltaSq : A × Fin 2 → GIdx t → ℚ :=
    fun pp k => Cplx.normSq (gain2 pp k - st.gain pp k)
  let num : ℕ :=
    ∑ pp ∈ st.parms,
      (Finset.univ.filter (fun k : GIdx t => deltaSq pp k < st.epsilonSq)).card
  let gd : A × Fin 2 → WithBot ℚ :=
    fun pp => Finset.univ.sup (fun k : GIdx t => ((deltaSq pp k : ℚ) : WithBot ℚ))
  let st' : GState t A :=
    { st with
      gain := fun pp => if pp ∈ st.parms then gain2 pp else st.gain pp
      hasInvCaches := true
      num_converged := num
      gaindiffSq := fun pp => if pp ∈ st.parms then gd pp else ⊥
      maxdiffSq := st.parms.sup (fun pp => gd pp) }
  (st', decide (st.convergence_target ≤ (num : ℤ)))

/-- Run `m` successive `iterate` calls on the same data and model. -/
def iterateN {n : ℕ} {A : Type} [DecidableEq A] {t : Tiling n} (st : GState t A)
    (data model : VisMap t A) : ℕ → GState t A
  | 0 => st
  | m + 1 => (iterate (iterateN st data model m) data model).1

/-- The dictionary lookup `self.gain.get(key, self._unity)` (the gain
dictionary's key set is always `parms`). -/
def lookupGain {n : ℕ} {A : Type} [DecidableEq A] {t : Tiling n} (st : GState t A)
    (pp : A × Fin 2) : GArr t :=
  if pp ∈ st.parms then st.gain pp else st.unity

/-- The method `gpgq(pq,i,j)` (source lines 199-206): `Gp * conj(Gq)` tiled into the
subtile shape, substituting `_unity` for a missing gain key; the memo cache
is semantically transparent and not represented. -/
def gpgq {n : ℕ} {A : Type} [DecidableEq A] {t : Tiling n} (st : GState t A)
    (pq : A × A) (i j : Fin 2) : GIdx t → TIdx t → Cplx :=
  tile_gain t (fun k =>
    lookupGain st (pq.1, i) k * Cplx.conj (lookupGain st (pq.2, j) k))

/-- The per-antenna inverse `1/(gain.get(pi,_unity) + regularization_factor)`
(source line 218). -/
def gp_inv {n : ℕ} {A : Type} [DecidableEq A] {t : Tiling n} (st : GState t A)
    (pp : A × Fin 2) : GArr t :=
  fun k => Cplx.inv (lookupGain st pp k + Cplx.ofQ st.regularization_factor)

/-- The array computed by `gpgq_inv(pq,i,j)` (source line 223):
`(1/(Gp+reg)) * conj(1/(Gq+reg))` tiled into the subtile shape. -/
def gpgq_inv_arr {n : ℕ} {A : Type} [DecidableEq A] {t : Tiling n} (st : GState t A)
    (pq : A × A) (i j : Fin 2) : GIdx t → TIdx t → Cplx :=
  tile_gain t (fun k => gp_inv st (pq.1, i) k * Cplx.conj (gp_inv st (pq.2, j) k))

/-- The method `gpgq_inv(pq,i,j)` (source lines 208-224).  Its first statement reads the
`_gpgq_inv` attribute, which exists only after the first `iterate` call; on
a freshly constructed object the call raises `AttributeError`, embedded as
the `Except.error` outcome. -/
def gpgq_inv {n : ℕ} {A : Type} [DecidableEq A] {t : Tiling n} (st : GState t A)
    (pq : A × A) (i j : Fin 2) : Except Unit (GIdx t → TIdx t → Cplx) :=
  if st.hasInvCaches then Except.ok (gpgq_inv_arr st pq i j)
  else Except.error ()

/-- The method `corrupt(model, pq)` (source lines 262-270): slotwise
`untile_data(tile_data(m) * gpgq(pq,i,j))`, with a null model slot
propagated to a null output slot; the `cache` memoization is semantically
transparent and not represented. -/
def corrupt {n : ℕ} {A : Type} [DecidableEq A] {t : Tiling n} (st : GState t A)
    (model : VisMap t A) (pq : A × A) : Fin 4 → Option (DArr t) :=
  fun c =>
    match getVis model pq c with
    | none => none
    | some m =>
        some (untile_data t (fun k mt =>
          tile_data t m k mt * gpgq st pq (IJ2x2 c).1 (IJ2x2 c).2 k mt))

/-- The method `correct(data, pq)` (source lines 251-259, with `index=True` so `data`
is first looked up at `pq`): slotwise
`untile_data(tile_data(d) * gpgq_inv(pq,i,j))`, null slots propagated.  The
slots are computed left to right and `gpgq_inv` is only reached at the first
non-null slot, so the `AttributeError` of a pre-`iterate` call (no
`_gpgq_inv` attribute) occurs exactly when some slot is non-null. -/
def correct {n : ℕ} {A : Type} [DecidableEq A] {t : Tiling n} (st : GState t A)
    (data : VisMap t A) (pq : A × A) : Except Unit (Fin 4 → Option (DArr t)) :=
  if st.hasInvCaches then
    Except.ok (fun c =>
      match getVis data pq c with
      | none => none
      | some d =>
          some (untile_data t (fun k mt =>
            tile_data t d k mt * gpgq_inv_arr st pq (IJ2x2 c).1 (IJ2x2 c).2 k mt)))
  else if ∀ c : Fin 4, (getVis data pq c).isNone = true then
    Except.ok (fun _ => none)
  else Except.error ()

/-- The method `residual(data, model, pq)` (source lines 237-249):
`[d - c for d,c in zip(data[pq], corrupt(model,pq,True))]` under the
scalar-`0` null-sentinel arithmetic: `0 - 0` is the null scalar `0`, an
array minus the scalar `0` is the array itself, and the scalar `0` minus an
array is the negated array; the memoization is semantically transparent and
not represented. -/
def residualFn {n : ℕ} {A : Type} [DecidableEq A] {t : Tiling n} (st : GState t A)
    (data model : VisMap t A) (pq : A × A) : Fin 4 → Option (DArr t) :=
  fun c =>
    match getVis data pq c, corrupt st model pq c with
    | none, none => none
    | some d, none => some d
    | none, some co => some (fun a => -co a)
    | some d, some co => some (fun a => d a - co a)

/-- The quantity `gainshape` exactly as the constructor computes it (source line 50):
`zip` of `datashape` with `subtiling` silently truncates to the shorter of
the two tuples, and the Python 2 `/` on integers is floor division; no
length or divisibility check is performed at construction. -/
def pyGainshape (datashape subtiling : List ℕ) : List ℕ :=
  List.zipWith (fun nd nt => nd / nt) datashape subtiling

/-- Spec-side (§4.3, half-step A): the contribution of inner key `qj` to
`sum_reim` of outer key `(p,i)` — `reduce_subtiles(dmh)` with
`mh = tile_data(m) * tile_gain(gain[q,j])` and `dmh = tile_data(d) * mh` —
or zero when the baseline is absent from `data` in both orientations or the
resolved key lies outside the solve set. -/
def specReimA {n : ℕ} {A : Type} [DecidableEq A] {t : Tiling n} (st : GState t A)
    (data model : VisMap t A) (p : A) (i : Fin 2) (qj : A × Fin 2) :
    GIdx t → Cplx :=
  match pq_direct_conjugate p qj.1 (dataDom data) with
  | none => fun _ => 0
  | some (pq, sw) =>
    if pq ∈ st.solve_ifrs then
      let m : DArr t := conjugate_fn sw (corrV (getVis model pq (idx4 i qj.2)))
      let d : DArr t := direct_fn sw (corrV (getVis data pq (idx4 i qj.2)))
      let mh : GIdx t → TIdx t → Cplx :=
        fun k mt => tile_data t m k mt * tile_gain t (st.gain qj) k mt
      reduce_subtiles t (fun k mt => tile_data t d k mt * mh k mt)
    else fun _ => 0

/-- Spec-side (§4.3, half-step A): the contribution of inner key `qj` to
`sum_sq` of outer key `(p,i)` — `reduce_subtiles(mh2)` with `mh2 = |mh|²`. -/
def specSqA {n : ℕ} {A : Type} [DecidableEq A] {t : Tiling n} (st : GState t A)
    (data model : VisMap t A) (p : A) (i : Fin 2) (qj : A × Fin 2) :
    GIdx t → ℚ :=
  match pq_direct_conjugate p qj.1 (dataDom data) with
  | none => fun _ => 0
  | some (pq, sw) =>
    if pq ∈ st.solve_ifrs then
      let m : DArr t := conjugate_fn sw (corrV (getVis model pq (idx4 i qj.2)))
      let mh : GIdx t → TIdx t → Cplx :=
        fun k mt => tile_data t m k mt * tile_gain t (st.gain qj) k mt
      reduce_subtiles t (fun k mt => Cplx.normSq (mh k mt))
    else fun _ => 0

/-- Spec-side `sum_reim` accumulated over all contributing keys. -/
def specSumReimA {n : ℕ} {A : Type} [DecidableEq A] {t : Tiling n} (st : GState t A)
    (data model : VisMap t A) (p : A) (i : Fin 2) : GIdx t → Cplx :=
  fun k => ∑ qj ∈ st.parms, specReimA st data model p i qj k

/-- Spec-side `sum_sq` accumulated over all contributing keys. -/
def specSumSqA {n : ℕ} {A : Type} [DecidableEq A] {t : Tiling n} (st : GState t A)
    (data model : VisMap t A) (p : A) (i : Fin 2) : GIdx t → ℚ :=
  fun k => ∑ qj ∈ st.parms, specSqA st data model p i qj k

/-- Spec-side candidate gain of half-step A (§4.3 step 2):
`gain1[p,i] = (sum_reim/sum_sq + gain[p,i]) / 2`, retaining the old value
unchanged at every gain-grid element where `sum_sq == 0`. -/
def specGain1 {n : ℕ} {A : Type} [DecidableEq A] {t : Tiling n} (st : GState t A)
    (data model : VisMap t A) : A × Fin 2 → GArr t :=
  fun pp k =>
    if specSumSqA st data model pp.1 pp.2 k = 0 then st.gain pp k
    else Cplx.divQ
      (Cplx.divQ (specSumReimA st data model pp.1 pp.2 k)
        (specSumSqA st data model pp.1 pp.2 k) + st.gain pp k) 2

/-- Spec-side (§4.3, half-step B): the `sum_reim` contribution of inner key
`pi` to outer key `(q,j)`, with the orientation resolved as
`pq_direct_conjugate(p,q,data)`, the conversion roles of model and data
swapped relative to half-step A, and `mh` formed from the already-updated
`gain1[p,i]`. -/
def specReimB {n : ℕ} {A : Type} [DecidableEq A] {t : Tiling n} (st : GState t A)
    (data model : VisMap t A) (gain1 : A × Fin 2 → GArr t) (q : A) (j : Fin 2)
    (pi : A × Fin 2) : GIdx t → Cplx :=
  match pq_direct_conjugate pi.1 q (dataDom data) with
  | none => fun _ => 0
  | some (pq, sw) =>
    if pq ∈ st.solve_ifrs then
      let m : DArr t := direct_fn sw (corrV (getVis model pq (idx4 pi.2 j)))
      let d : DArr t := conjugate_fn sw (corrV (getVis data pq (idx4 pi.2 j)))
      let mh : GIdx t → TIdx t → Cplx :=
        fun k mt => tile_data t m k mt * tile_gain t (gain1 pi) k mt
      reduce_subtiles t (fun k mt => tile_data t d k mt * mh k mt)
    else fun _ => 0

/-- Spec-side (§4.3, half-step B): the `sum_sq` contribution of inner key
`pi` to outer key `(q,j)`. -/
def specSqB {n : ℕ} {A : Type} [DecidableEq A] {t : Tiling n} (st : GState t A)
    (data model : VisMap t A) (gain1 : A × Fin 2 → GArr t) (q : A) (j : Fin 2)
    (pi : A × Fin 2) : GIdx t → ℚ :=
  match pq_direct_conjugate pi.1 q (dataDom data) with
  | none => fun _ => 0
  | some (pq, sw) =>
    if pq ∈ st.solve_ifrs then
      let m : DArr t := direct_fn sw (corrV (getVis model pq (idx4 pi.2 j)))
      let mh : GIdx t → TIdx t → Cplx :=
        fun k mt => tile_data t m k mt * tile_gain t (gain1 pi) k mt
      reduce_subtiles t (fun k mt => Cplx.normSq (mh k mt))
    else fun _ => 0

/-- Spec-side half-step-B `sum_reim`. -/
def specSumReimB {n : ℕ} {A : Type} [DecidableEq A] {t : Tiling n} (st : GState t A)
    (data model : VisMap t A) (gain1 : A × Fin 2 → GArr t) (q : A) (j : Fin 2) :
    GIdx t → Cplx :=
  fun k => ∑ pi ∈ st.parms, specReimB st data model gain1 q j pi k

/-- Spec-side half-step-B `sum_sq`. -/
def specSumSqB {n : ℕ} {A : Type} [DecidableEq A] {t : Tiling n} (st : GState t A)
    (data model : VisMap t A) (gain1 : A × Fin 2 → GArr t) (q : A) (j : Fin 2) :
    GIdx t → ℚ :=
  fun k => ∑ pi ∈ st.parms, specSqB st data model gain1 q j pi k

/-- Spec-side result of half-step B (§4.3 step 3):
`gain2[q,j] = (sum_reim/sum_sq + gain1[q,j]) / 2`, elements with
`sum_sq == 0` retaining `gain1[q,j]`, where the sums are formed with the
half-step-A output (spec-side `gain1`). -/
def specGain2 {n : ℕ} {A : Type} [DecidableEq A] {t : Tiling n} (st : GState t A)
    (data model : VisMap t A) : A × Fin 2 → GArr t :=
  fun qj k =>
    let g1 := specGain1 st data model
    if specSumSqB st data model g1 qj.1 qj.2 k = 0 then g1 qj k
    else Cplx.divQ
      (Cplx.divQ (specSumReimB st data model g1 qj.1 qj.2 k)
        (specSumSqB st data model g1 qj.1 qj.2 k) + g1 qj k) 2

theorem stepATerm_fst {n : ℕ} {A : Type} [DecidableEq A] {t : Tiling n}
    (st : GState t A) (data model : VisMap t A) (p : A) (i : Fin 2)
    (qj : A × Fin 2) (k : GIdx t) :
    (stepATerm st data model p i qj).1 k = specReimA st data model p i qj k := by
  unfold stepATerm specReimA
  cases pq_direct_conjugate p qj.1 (dataDom data) with
  | none => rfl
  | some x =>
      obtain ⟨pq, sw⟩ := x
      by_cases hm : pq ∈ st.solve_ifrs <;> simp [hm]

theorem stepATerm_snd {n : ℕ} {A : Type} [DecidableEq A] {t : Tiling n}
    (st : GState t A) (data model : VisMap t A) (p : A) (i : Fin 2)
    (qj : A × Fin 2) (k : GIdx t) :
    (stepATerm st data model p i qj).2 k = specSqA st data model p i qj k := by
  unfold stepATerm specSqA
  cases pq_direct_conjugate p qj.1 (dataDom data) with
  | none => rfl
  | some x =>
      obtain ⟨pq, sw⟩ := x
      by_cases hm : pq ∈ st.solve_ifrs <;> simp [hm]

theorem stepBTerm_fst {n : ℕ} {A : Type} [DecidableEq A] {t : Tiling n}
    (st : GState t A) (data model : VisMap t A) (gain1 : A × Fin 2 → GArr t)
    (q : A) (j : Fin 2) (pi : A × Fin 2) (k : GIdx t) :
    (stepBTerm st data model gain1 q j pi).1 k =
      specReimB st data model gain1 q j pi k := by
  unfold stepBTerm specReimB
  cases pq_direct_conjugate pi.1 q (dataDom data) with
  | none => rfl
  | some x =>
      obtain ⟨pq, sw⟩ := x
      by_cases hm : pq ∈ st.solve_ifrs <;> simp [hm]

theorem stepBTerm_snd {n : ℕ} {A : Type} [DecidableEq A] {t : Tiling n}
    (st : GState t A) (data model : VisMap t A) (gain1 : A × Fin 2 → GArr t)
    (q : A) (j : Fin 2) (pi : A × Fin 2) (k : GIdx t) :
    (stepBTerm st data model gain1 q j pi).2 k =
      specSqB st data model gain1 q j pi k := by
  unfold stepBTerm specSqB
  cases pq_direct_conjugate pi.1 q (dataDom data) with
  | none => rfl
  | some x =>
      obtain ⟨pq, sw⟩ := x
      by_cases hm : pq ∈ st.solve_ifrs <;> simp [hm]

theorem halfStepA_eq_spec {n : ℕ} {A : Type} [DecidableEq A] {t : Tiling n}
    (st : GState t A) (data model : VisMap t A) :
    halfStepA st data model = specGain1 st data model := by
  funext pp k
  unfold halfStepA specGain1
  have h1 : (stepASums st data model pp.1 pp.2).1 k =
      specSumReimA st data model pp.1 pp.2 k :=
    Finset.sum_congr rfl (fun qj _ => stepATerm_fst st data model pp.1 pp.2 qj k)
  have h2 : (stepASums st data model pp.1 pp.2).2 k =
      specSumSqA st data model pp.1 pp.2 k :=
    Finset.sum_congr rfl (fun qj _ => stepATerm_snd st data model pp.1 pp.2 qj k)
  simp only [h1, h2]

theorem halfStepB_eq_spec {n : ℕ} {A : Type} [DecidableEq A] {t : Tiling n}
    (st : GState t A) (data model : VisMap t A) :
    halfStepB st data model (halfStepA st data model) = specGain2 st data model := by
  rw [halfStepA_eq_spec]
  funext qj k
  unfold halfStepB specGain2
  have h1 : (stepBSums st data model (specGain1 st data model) qj.1 qj.2).1 k =
      specSumReimB st data model (specGain1 st data model) qj.1 qj.2 k :=
    Finset.sum_congr rfl
      (fun pi _ => stepBTerm_fst st data model (specGain1 st data model) qj.1 qj.2 pi k)
  have h2 : (stepBSums st data model (specGain1 st data model) qj.1 qj.2).2 k =
      specSumSqB st data model (specGain1 st data model) qj.1 qj.2 k :=
    Finset.sum_congr rfl
      (fun pi _ => stepBTerm_snd st data model (specGain1 st data model) qj.1 qj.2 pi k)
  simp only [h1, h2]

/-- A concrete nontrivial tiling: datashape `(2,)`, subtiling `(2,)`,
gainshape `(1,)`. -/
def tEx : Tiling 1 where
  N := fun _ => 2
  M := fun _ => 2
  hdvd := fun _ => dvd_refl _
  hpos := fun _ => two_pos

theorem tEx_K (i : Fin 1) : tEx.K i = 1 := by
  show (2 : ℕ) / 2 = 1
  exact Nat.div_self two_pos

/-- The gain cell of `tEx`. -/
def kEx : GIdx tEx := fun i => ⟨0, by have := tEx_K i; omega⟩

/-- A concrete nonreal gain array on `tEx`. -/
def gEx : GArr tEx := fun _ => ⟨3, 5⟩

/-- A solve set with the single baseline `(0,1)` over antennas `Fin 3`. -/
def solveEx : Finset (Fin 3 × Fin 3) := {(0, 1)}

/-- A solve set containing also the baseline `(0,2)`, for which no data will
be supplied. -/
def solveEx2 : Finset (Fin 3 × Fin 3) := {(0, 1), (0, 2)}

/-- All four correlation slots present, holding the constant-one array. -/
def visOnes : Corrs tEx := fun _ => some (fun _ => 1)

/-- Slot 0 null, the other slots the constant-one array. -/
def visNull0 : Corrs tEx := fun c => if c = 0 then none else some (fun _ => 1)

/-- Every correlation slot null. -/
def visAllNull : Corrs tEx := fun _ => none

/-- Data with the single baseline `(0,1)`, all slots present. -/
def dataEx : VisMap tEx (Fin 3) := fun pq => if pq = (0, 1) then some visOnes else none

/-- Model with the single baseline `(0,1)`, all slots present. -/
def modelEx : VisMap tEx (Fin 3) := fun pq => if pq = (0, 1) then some visOnes else none

/-- Data with the single baseline `(0,1)` whose slot 0 is null. -/
def dataN0 : VisMap tEx (Fin 3) := fun pq => if pq = (0, 1) then some visNull0 else none

/-- Data with the single baseline `(0,1)`, every slot null. -/
def dataNN : VisMap tEx (Fin 3) := fun pq => if pq = (0, 1) then some visAllNull else none

/-- Model with the single baseline `(0,1)`, every slot null. -/
def modelNN : VisMap tEx (Fin 3) := fun pq => if pq = (0, 1) then some visAllNull else none

/-- A freshly constructed solver state (unity initial value). -/
def stEx : GState tEx (Fin 3) := mkGain tEx solveEx 1 1 0 InitValue.one

/-- The solver state after one `iterate` call on `stEx`. -/
def stExIter : GState tEx (Fin 3) := (iterate stEx dataEx modelEx).1

/-- A freshly constructed solver state whose solve set also contains the
baseline `(0,2)` absent from the data. -/
def stEx2 : GState tEx (Fin 3) := mkGain tEx solveEx2 1 1 0 InitValue.one

/-- The state constructed from a previous-solution dictionary holding the
single full-array entry `(0,0) ↦ 2`. -/
def st5 : GState tEx (Fin 3) :=
  mkGain tEx solveEx 1 1 0
    (InitValue.dict [((0, 0), Sum.inl (fun _ => Cplx.ofQ 2))])

/-- Claim C1: in half-step A of `iterate`, for every gain key `(p,i)`, with
`mh = tile_data(m) * tile_gain(gain[q,j])` accumulated over all contributing
keys `(q,j)` into `sum_reim` (the sum of `reduce_subtiles(tile_data(d)*mh)`)
and `sum_sq` (the sum of `reduce_subtiles(|mh|²)`), the candidate gain is
`gain1[p,i] = (sum_reim/sum_sq + gain[p,i])/2`, and at every gain-grid
element where `sum_sq == 0` the old value `gain[p,i]` is retained unchanged.
`specGain1` is that formula written from the spec's words (with the
squared-modulus encoding of `|·|²`, which is exact). -/
theorem claim_C1 {n : ℕ} {A : Type} [DecidableEq A] {t : Tiling n}
    (st : GState t A) (data model : VisMap t A) :
    halfStepA st data model = specGain1 st data model :=
  halfStepA_eq_spec st data model

/-- Claim C2: in half-step B of `iterate`, for every gain key `(q,j)`, the
term `mh` is formed using the already-updated half-step-A values
`gain1[p,i]` as the other antenna's current gain, the result is
`gain2[q,j] = (sum_reim/sum_sq + gain1[q,j])/2` with elements where
`sum_sq == 0` retaining `gain1[q,j]`, and `iterate` replaces the stored gain
mapping with `gain2` (the state returned by `iterate` holds `gain2` at every
gain key).  `specGain2` is that formula written from the spec's words, built
on the spec-side half-step-A output. -/
theorem claim_C2 {n : ℕ} {A : Type} [DecidableEq A] {t : Tiling n}
    (st : GState t A) (data model : VisMap t A) (q : A) (j : Fin 2)
    (h : (q, j) ∈ st.parms) :
    (iterate st data model).1.gain (q, j) = specGain2 st data model (q, j) := by
  have hrepl : (iterate st data model).1.gain (q, j) =
      halfStepB st data model (halfStepA st data model) (q, j) := by
    show (if (q, j) ∈ st.parms
          then halfStepB st data model (halfStepA st data model) (q, j)
          else st.gain (q, j)) = _
    rw [if_pos h]
  rw [hrepl, halfStepB_eq_spec]

theorem claim_C2_witness :
    ((1 : Fin 3), (0 : Fin 2)) ∈ stEx.parms ∧
    (iterate stEx dataEx modelEx).1.gain (1, 0) = specGain2 stEx dataEx modelEx (1, 0) :=
  ⟨by decide, claim_C2 stEx dataEx modelEx 1 0 (by decide)⟩

/-- Spec-side convergence count (§4.3 step 4): for every gain key, the
number of gain-grid elements with `delta < epsilon` (squared-modulus
encoding), summed over all keys, with `delta = |gain2[key] - gain[key]|`
computed against the pre-iteration gain. -/
def specNumConverged {n : ℕ} {A : Type} [DecidableEq A] {t : Tiling n}
    (st : GState t A) (data model : VisMap t A) : ℕ :=
  ∑ pp ∈ st.parms,
    (Finset.univ.filter (fun k : GIdx t =>
      Cplx.normSq (specGain2 st data model pp k - st.gain pp k) < st.epsilonSq)).card

/-- Spec-side `maxdiff`: the global maximum over all keys of the per-key
maximum of `delta` (squared-modulus encoding; `⊥` corresponds to the empty
key set or empty gain grid, on which the Python `max` would raise). -/
def specMaxdiffSq {n : ℕ} {A : Type} [DecidableEq A] {t : Tiling n}
    (st : GState t A) (data model : VisMap t A) : WithBot ℚ :=
  st.parms.sup (fun pp =>
    Finset.univ.sup (fun k : GIdx t =>
      ((Cplx.normSq (specGain2 st data model pp k - st.gain pp k) : ℚ) : WithBot ℚ)))

/-- Claim C3: `iterate` computes, for every gain key, `delta` elementwise
against the pre-iteration gain, sets `num_converged` to the count over all
keys of elements with `delta < epsilon` and `maxdiff` to the global maximum
of the per-key maxima, and returns `True` exactly when
`num_converged >= convergence_target`, where
`convergence_target = floor(conv_quota * total_parms)` and
`total_parms = (number of gain keys) * (elements per gain array)`
(moduli in the squared encoding; `floor` agrees with Python 2's `int()`
truncation because `conv_quota >= 0`). -/
theorem claim_C3 {n : ℕ} {A : Type} [DecidableEq A] {t : Tiling n}
    (st : GState t A) (data model : VisMap t A) (sifrs : Finset (A × A))
    (eps cq reg : ℚ) (init : InitValue t A) (hq : 0 ≤ cq) :
    (iterate st data model).1.num_converged = specNumConverged st data model ∧
    (iterate st data model).1.maxdiffSq = specMaxdiffSq st data model ∧
    ((iterate st data model).2 = true ↔
      st.convergence_target ≤ (specNumConverged st data model : ℤ)) ∧
    (mkGain t sifrs eps cq reg init).convergence_target =
      ⌊cq * (((mkGain t sifrs eps cq reg init).parms.card *
        Fintype.card (GIdx t) : ℕ) : ℚ)⌋ := by
  have hg2 := halfStepB_eq_spec st data model
  have hsum : (∑ pp ∈ st.parms,
      (Finset.univ.filter (fun k : GIdx t =>
        Cplx.normSq (halfStepB st data model (halfStepA st data model) pp k -
          st.gain pp k) < st.epsilonSq)).card) =
      specNumConverged st data model := by
    rw [hg2]; rfl
  refine ⟨?_, ?_, ?_, ?_⟩
  · show (∑ pp ∈ st.parms,
        (Finset.univ.filter (fun k : GIdx t =>
          Cplx.normSq (halfStepB st data model (halfStepA st data model) pp k -
            st.gain pp k) < st.epsilonSq)).card) = _
    exact hsum
  · show st.parms.sup (fun pp =>
        Finset.univ.sup (fun k : GIdx t =>
          ((Cplx.normSq (halfStepB st data model (halfStepA st data model) pp k -
            st.gain pp k) : ℚ) : WithBot ℚ))) = _
    rw [hg2]; rfl
  · show decide (st.convergence_target ≤
        ((∑ pp ∈ st.parms,
          (Finset.univ.filter (fun k : GIdx t =>
            Cplx.normSq (halfStepB st data model (halfStepA st data model) pp k -
              st.gain pp k) < st.epsilonSq)).card : ℕ) : ℤ)) = true ↔ _
    rw [hsum, decide_eq_true_iff]
  · have hK : (∏ i : Fin n, t.K i) = Fintype.card (GIdx t) := by
      rw [Fintype.card_pi]
      exact (Finset.prod_congr rfl (fun i _ => (Fintype.card_fin _).symm))
    show pyInt ((((mkGain t sifrs eps cq reg init).parms.card *
        ∏ i : Fin n, t.K i : ℕ) : ℚ) * cq) = _
    rw [hK]
    have hx : (0 : ℚ) ≤ (((mkGain t sifrs eps cq reg init).parms.card *
        Fintype.card (GIdx t) : ℕ) : ℚ) := Nat.cast_nonneg _
    unfold pyInt
    rw [if_pos (mul_nonneg hx hq), mul_comm]

theorem claim_C3_witness :
    (0 : ℚ) ≤ 1 ∧
    ((iterate stEx dataEx modelEx).1.num_converged =
        specNumConverged stEx dataEx modelEx ∧
      (iterate stEx dataEx modelEx).1.maxdiffSq = specMaxdiffSq stEx dataEx modelEx ∧
      ((iterate stEx dataEx modelEx).2 = true ↔
        stEx.convergence_target ≤ (specNumConverged stEx dataEx modelEx : ℤ)) ∧
      (mkGain tEx solveEx 1 1 0 InitValue.one).convergence_target =
        ⌊(1 : ℚ) * (((mkGain tEx solveEx 1 1 0 InitValue.one).parms.card *
          Fintype.card (GIdx tEx) : ℕ) : ℚ)⌋) :=
  ⟨by norm_num,
   claim_C3 stEx dataEx modelEx solveEx 1 1 0 InitValue.one (by norm_num)⟩

theorem reduce_tile_gain_view {n : ℕ} (t : Tiling n) (g : GArr t) (k : GIdx t) :
    reduce_subtiles t (tile_gain_view t g) k = g k := by
  unfold reduce_subtiles tile_gain_view
  rw [Finset.sum_const, Finset.card_univ]
  have hcard : Fintype.card ((i : Fin n) → Fin 1) = 1 := by
    rw [Fintype.card_pi]
    simp
  rw [hcard, one_smul]

theorem cast_two_cplx : ((2 : ℕ) : Cplx) = 1 + 1 := by
  have h : (2 : ℕ) = 1 + 1 := rfl
  rw [h, Nat.cast_add, Nat.cast_one]

/-- Claim C4, counterexample: the view the source's `tile_gain` returns has
size-1 inserted tile axes, so `reduce_subtiles` applied to it directly sums
one element per gain cell and returns `g` itself — not `g` multiplied by the
product of the subtiling factors (here 2): at the concrete array `gEx` with
value `3+5i` the claimed equation fails. -/
theorem claim_C4_counterexample :
    reduce_subtiles tEx (tile_gain_view tEx gEx) kEx = gEx kEx ∧
    reduce_subtiles tEx (tile_gain_view tEx gEx) kEx ≠
      ((∏ i : Fin 1, tEx.M i : ℕ) : Cplx) * gEx kEx := by
  refine ⟨reduce_tile_gain_view tEx gEx kEx, ?_⟩
  rw [reduce_tile_gain_view tEx gEx kEx]
  have hprod : (∏ i : Fin 1, tEx.M i) = 2 := by decide
  rw [hprod, cast_two_cplx]
  intro hcontra
  have hre := congrArg Cplx.re hcontra
  simp only [gEx, Cplx.mul_re, Cplx.add_re, Cplx.add_im, Cplx.one_re,
    Cplx.one_im] at hre
  norm_num at hre

/-- Claim C4, amended: for every gain-grid-shaped array `g` and every valid
subtiling (with some factor greater than one, selecting the non-trivial
tiling path), `reduce_subtiles(tile_gain(g))` equals `g` itself: the view
returned by `tile_gain` has a size-1 inserted tile axis after each gain
axis, so summing the tile axes has a single term per gain cell.  (A
product-of-factors multiple can arise only after the view is broadcast
against an array of full tile extent, as in the solver's `dmh`/`mh2`
accumulations; the direct composition the claim speaks of never broadcasts.) -/
theorem claim_C4 {n : ℕ} (t : Tiling n) (h : ∃ i, 1 < t.M i) (g : GArr t)
    (k : GIdx t) :
    reduce_subtiles t (tile_gain_view t g) k = g k :=
  reduce_tile_gain_view t g k

theorem claim_C4_witness :
    (∃ i, 1 < tEx.M i) ∧
    reduce_subtiles tEx (tile_gain_view tEx gEx) kEx = gEx kEx :=
  ⟨⟨0, Nat.one_lt_two⟩, claim_C4 tEx ⟨0, Nat.one_lt_two⟩ gEx kEx⟩

/-- Claim C5 (defect in the code): with `init_value` a mapping, the source
binds every gain key to the *same* array object `self._unity`
(line 73: `dict([(pp,self._unity) for pp in parms])`) and then writes the
supplied values into that shared buffer in place (lines 77-80).  Hence, in
this concrete instance whose supplied mapping holds only the key `(0,0)`
with the constant-2 array, the key `(1,0)` — a gain key absent from the
supplied mapping, which per the claim (and the source's own comment, "use it
to initialize each array with a different value") should have remained at
unity — also ends up equal to 2, as does `_unity` itself. -/
theorem claim_C5_bug :
    ((1, 0) : Fin 3 × Fin 2) ∈ st5.parms ∧
    st5.gain (0, 0) = (fun _ => Cplx.ofQ 2) ∧
    st5.gain (1, 0) = (fun _ => Cplx.ofQ 2) ∧
    st5.unity = (fun _ => Cplx.ofQ 2) := by decide

theorem stepATerm_isolated {n : ℕ} {A : Type} [DecidableEq A] {t : Tiling n}
    (st : GState t A) (data model : VisMap t A) (p0 : A)
    (hp : ∀ x : A, (dataDom data (p0, x) = true → (p0, x) ∉ st.solve_ifrs) ∧
      (dataDom data (x, p0) = true → (x, p0) ∉ st.solve_ifrs))
    (i : Fin 2) (qj : A × Fin 2) :
    stepATerm st data model p0 i qj = (fun _ => 0, fun _ => 0) := by
  unfold stepATerm pq_direct_conjugate
  by_cases h1 : dataDom data (p0, qj.1) = true
  · have hns := (hp qj.1).1 h1
    simp [h1, hns]
  · by_cases h2 : dataDom data (qj.1, p0) = true
    · have hns := (hp qj.1).2 h2
      simp [h1, h2, hns]
    · simp [h1, h2]

theorem stepBTerm_isolated {n : ℕ} {A : Type} [DecidableEq A] {t : Tiling n}
    (st : GState t A) (data model : VisMap t A) (p0 : A)
    (hp : ∀ x : A, (dataDom data (p0, x) = true → (p0, x) ∉ st.solve_ifrs) ∧
      (dataDom data (x, p0) = true → (x, p0) ∉ st.solve_ifrs))
    (gain1 : A × Fin 2 → GArr t) (j : Fin 2) (pi : A × Fin 2) :
    stepBTerm st data model gain1 p0 j pi = (fun _ => 0, fun _ => 0) := by
  unfold stepBTerm pq_direct_conjugate
  by_cases h1 : dataDom data (pi.1, p0) = true
  · have hns := (hp pi.1).2 h1
    simp [h1, hns]
  · by_cases h2 : dataDom data (p0, pi.1) = true
    · have hns := (hp pi.1).1 h2
      simp [h1, h2, hns]
    · simp [h1, h2]

theorem halfStepA_isolated {n : ℕ} {A : Type} [DecidableEq A] {t : Tiling n}
    (st : GState t A) (data model : VisMap t A) (p0 : A)
    (hp : ∀ x : A, (dataDom data (p0, x) = true → (p0, x) ∉ st.solve_ifrs) ∧
      (dataDom data (x, p0) = true → (x, p0) ∉ st.solve_ifrs))
    (i : Fin 2) :
    halfStepA st data model (p0, i) = st.gain (p0, i) := by
  funext k
  show (if (stepASums st data model p0 i).2 k = 0 then st.gain (p0, i) k
        else Cplx.divQ (Cplx.divQ ((stepASums st data model p0 i).1 k)
          ((stepASums st data model p0 i).2 k) + st.gain (p0, i) k) 2) =
    st.gain (p0, i) k
  have hz : (stepASums st data model p0 i).2 k = 0 :=
    Finset.sum_eq_zero (fun qj _ => by
      rw [stepATerm_isolated st data model p0 hp i qj])
  rw [if_pos hz]

theorem iterate_gain_isolated {n : ℕ} {A : Type} [DecidableEq A] {t : Tiling n}
    (st : GState t A) (data model : VisMap t A) (p0 : A)
    (hp : ∀ x : A, (dataDom data (p0, x) = true → (p0, x) ∉ st.solve_ifrs) ∧
      (dataDom data (x, p0) = true → (x, p0) ∉ st.solve_ifrs))
    (i : Fin 2) :
    (iterate st data model).1.gain (p0, i) = st.gain (p0, i) := by
  show (if (p0, i) ∈ st.parms
        then halfStepB st data model (halfStepA st data model) (p0, i)
        else st.gain (p0, i)) = st.gain (p0, i)
  by_cases hmem : (p0, i) ∈ st.parms
  · rw [if_pos hmem]
    funext k
    show (if (stepBSums st data model (halfStepA st data model) p0 i).2 k = 0
          then halfStepA st data model (p0, i) k
          else Cplx.divQ (Cplx.divQ
            ((stepBSums st data model (halfStepA st data model) p0 i).1 k)
            ((stepBSums st data model (halfStepA st data model) p0 i).2 k) +
              halfStepA st data model (p0, i) k) 2) = st.gain (p0, i) k
    have hz : (stepBSums st data model (halfStepA st data model) p0 i).2 k = 0 :=
      Finset.sum_eq_zero (fun pi _ => by
        rw [stepBTerm_isolated st data model p0 hp (halfStepA st data model) i pi])
    rw [if_pos hz, halfStepA_isolated st data model p0 hp i]
  · rw [if_neg hmem]

theorem iterateN_solve_ifrs {n : ℕ} {A : Type} [DecidableEq A] {t : Tiling n}
    (st : GState t A) (data model : VisMap t A) (m : ℕ) :
    (iterateN st data model m).solve_ifrs = st.solve_ifrs := by
  induction m with
  | zero => rfl
  | succ m ih =>
      have hstep : (iterate (iterateN st data model m) data model).1.solve_ifrs =
          (iterateN st data model m).solve_ifrs := rfl
      show (iterate (iterateN st data model m) data model).1.solve_ifrs = _
      rw [hstep, ih]

/-- Claim C6: for every gain key `(p,i)` such that no baseline of the solve
set contains antenna `p` in either orientation present in the data mapping,
any number of successive `iterate` calls leaves that key's gain exactly at
its initialized value (its accumulated weight `sum_sq` is identically zero
in both half-steps, so the masked update retains the old value; `iterate` is
a total function, so no exception arises from the all-zero weight). -/
theorem claim_C6 {n : ℕ} {A : Type} [DecidableEq A] {t : Tiling n}
    (st : GState t A) (data model : VisMap t A) (p0 : A)
    (hp : ∀ x : A, (dataDom data (p0, x) = true → (p0, x) ∉ st.solve_ifrs) ∧
      (dataDom data (x, p0) = true → (x, p0) ∉ st.solve_ifrs)) :
    ∀ (m : ℕ) (i : Fin 2),
      (iterateN st data model m).gain (p0, i) = st.gain (p0, i) := by
  intro m
  induction m with
  | zero => intro i; rfl
  | succ m ih =>
      intro i
      have hp' : ∀ x : A,
          (dataDom data (p0, x) = true →
            (p0, x) ∉ (iterateN st data model m).solve_ifrs) ∧
          (dataDom data (x, p0) = true →
            (x, p0) ∉ (iterateN st data model m).solve_ifrs) := by
        rw [iterateN_solve_ifrs]
        exact hp
      show (iterate (iterateN st data model m) data model).1.gain (p0, i) = _
      rw [iterate_gain_isolated (iterateN st data model m) data model p0 hp' i, ih i]

theorem claim_C6_witness :
    (∀ x : Fin 3,
      (dataDom dataEx ((2 : Fin 3), x) = true →
        ((2 : Fin 3), x) ∉ stEx2.solve_ifrs) ∧
      (dataDom dataEx (x, (2 : Fin 3)) = true →
        (x, (2 : Fin 3)) ∉ stEx2.solve_ifrs)) ∧
    (iterateN stEx2 dataEx modelEx 2).gain (2, 0) = stEx2.gain (2, 0) :=
  ⟨by decide, claim_C6 stEx2 dataEx modelEx 2 (by decide) 2 0⟩

/-- Claim C7, counterexample for the residual part of the claim as stated:
with the data correlation of slot 0 null (the sentinel) but the model
correlation present, `residual` computes `0 - corrupted_model`, producing a
full (negated) array in that slot rather than the null sentinel. -/
theorem claim_C7_counterexample :
    getVis dataN0 (0, 1) 0 = none ∧
    residualFn stEx dataN0 modelEx (0, 1) 0 ≠ none := by decide

/-- Claim C7, amended: for `corrupt`, a null model correlation propagates to
a null output slot; for `correct` (once the inverse caches exist, i.e. after
an `iterate` call), a null data correlation propagates to a null output slot
and the call succeeds; for `residual`, the output slot is `d - c` under the
scalar-zero sentinel arithmetic — null only when both the data slot and the
corrupted-model slot are null, the data slot unchanged when only the model
slot is null, and the negated corrupted model when only the data slot is
null.  No case raises (all operations are total up to the modelled
`AttributeError` of `correct`, which the cache hypothesis excludes). -/
theorem claim_C7 {n : ℕ} {A : Type} [DecidableEq A] {t : Tiling n}
    (st : GState t A) (data model : VisMap t A) (pq : A × A) (c : Fin 4) :
    (getVis model pq c = none → corrupt st model pq c = none) ∧
    (st.hasInvCaches = true → getVis data pq c = none →
      ∃ f, correct st data pq = Except.ok f ∧ f c = none) ∧
    (getVis model pq c = none → getVis data pq c = none →
      residualFn st data model pq c = none) ∧
    (∀ d, getVis model pq c = none → getVis data pq c = some d →
      residualFn st data model pq c = some d) ∧
    (∀ co, getVis data pq c = none → corrupt st model pq c = some co →
      residualFn st data model pq c = some (fun a => -co a)) := by
  refine ⟨?_, ?_, ?_, ?_, ?_⟩
  · intro hm
    unfold corrupt
    rw [hm]
  · intro hc hd
    unfold correct
    rw [if_pos hc]
    exact ⟨_, rfl, by rw [hd]⟩
  · intro hm hd
    unfold residualFn
    have hco : corrupt st model pq c = none := by unfold corrupt; rw [hm]
    rw [hd, hco]
  · intro d hm hd
    unfold residualFn
    have hco : corrupt st model pq c = none := by unfold corrupt; rw [hm]
    rw [hd, hco]
  · intro co hd hco
    unfold residualFn
    rw [hd, hco]

/-- The corrupted-model array of slot 0 on baseline `(0,1)` of the concrete
instance (used to exhibit the negated-array residual of a null data slot). -/
def coEx : DArr tEx :=
  untile_data tEx (fun k mt =>
    tile_data tEx (fun _ => (1 : Cplx)) k mt *
      gpgq stEx (0, 1) (IJ2x2 0).1 (IJ2x2 0).2 k mt)

theorem claim_C7_witness :
    corrupt stExIter modelNN (0, 1) 0 = none ∧
    (∃ f, correct stExIter dataNN (0, 1) = Except.ok f ∧ f 0 = none) ∧
    residualFn stExIter dataNN modelNN (0, 1) 0 = none ∧
    residualFn stExIter dataEx modelNN (0, 1) 0 = some (fun _ => 1) ∧
    residualFn stEx dataN0 modelEx (0, 1) 0 = some (fun a => -coEx a) :=
  ⟨(claim_C7 stExIter dataNN modelNN (0, 1) 0).1 (by decide),
   (claim_C7 stExIter dataNN dataNN (0, 1) 0).2.1 (by decide) (by decide),
   (claim_C7 stExIter dataNN modelNN (0, 1) 0).2.2.1 (by decide) (by decide),
   (claim_C7 stExIter dataEx modelNN (0, 1) 0).2.2.2.1 (fun _ => 1) (by decide) (by decide),
   (claim_C7 stEx dataN0 modelEx (0, 1) 0).2.2.2.2 coEx (by decide) rfl⟩

/-- Claim C8, counterexample: with `datashape` and `subtiling` of different
lengths, and with a non-dividing subtiling factor, the constructor's
`gainshape` computation (source line 50) succeeds, silently truncating via
`zip` to the shorter tuple and flooring the Python 2 integer division,
instead of failing with a reported error. -/
theorem claim_C8_counterexample :
    pyGainshape [4, 2] [2] = [2] ∧ pyGainshape [3] [2] = [1] := by decide

/-- Claim C8, amended: the constructor performs no validation of
`datashape`/`subtiling`: the computed gain shape is the `zip` of the two
tuples (silently truncated to the shorter length) with each entry the floor
of the division. -/
theorem claim_C8 (ds st : List ℕ) :
    (pyGainshape ds st).length = min ds.length st.length ∧
    ∀ (i : ℕ) (h1 : i < ds.length) (h2 : i < st.length),
      (pyGainshape ds st)[i]? = some (ds.get ⟨i, h1⟩ / st.get ⟨i, h2⟩) := by
  constructor
  · simp [pyGainshape]
  · intro i h1 h2
    rw [pyGainshape, List.getElem?_zipWith_eq_some]
    exact ⟨ds.get ⟨i, h1⟩, st.get ⟨i, h2⟩,
      by simp [List.getElem?_eq_getElem h1, List.get_eq_getElem],
      by simp [List.getElem?_eq_getElem h2, List.get_eq_getElem], rfl⟩

theorem claim_C8_witness :
    (pyGainshape [4, 2] [2]).length = min ([4, 2] : List ℕ).length ([2] : List ℕ).length ∧
    (pyGainshape [4, 2] [2])[0]? =
      some (([4, 2] : List ℕ).get ⟨0, by decide⟩ / ([2] : List ℕ).get ⟨0, by decide⟩) :=
  ⟨(claim_C8 [4, 2] [2]).1, (claim_C8 [4, 2] [2]).2 0 (by decide) (by decide)⟩

/-- Claim C9: on a freshly constructed object on which `iterate` has never
been called, `gpgq_inv` (and hence `correct`, as soon as some slot is
non-null so the comprehension reaches `gpgq_inv`) raises `AttributeError`,
because the `_gpgq_inv` and `_gp_inv` caches are first created inside
`iterate` (lines 110-111) and not by the constructor (which initializes only
`_residual`, `_corrupt` and `_gpgq`, lines 89-91). -/
theorem claim_C9 {n : ℕ} {A : Type} [DecidableEq A] (t : Tiling n)
    (sifrs : Finset (A × A)) (eps cq reg : ℚ) (init : InitValue t A)
    (pq : A × A) (i j : Fin 2) (data model : VisMap t A)
    (hd : ∃ c : Fin 4, (getVis data pq c).isNone = false) :
    (mkGain t sifrs eps cq reg init).hasInvCaches = false ∧
    gpgq_inv (mkGain t sifrs eps cq reg init) pq i j = Except.error () ∧
    correct (mkGain t sifrs eps cq reg init) data pq = Except.error () ∧
    (iterate (mkGain t sifrs eps cq reg init) data model).1.hasInvCaches = true := by
  have hf : (mkGain t sifrs eps cq reg init).hasInvCaches = false := rfl
  refine ⟨rfl, ?_, ?_, rfl⟩
  · unfold gpgq_inv
    rw [hf]
    simp
  · unfold correct
    rw [hf]
    obtain ⟨c0, hc0⟩ := hd
    have hnall : ¬ (∀ c : Fin 4, (getVis data pq c).isNone = true) := by
      intro hall
      rw [hall c0] at hc0
      exact Bool.noConfusion hc0
    rw [if_neg (by simp), if_neg hnall]

theorem claim_C9_witness :
    stEx.hasInvCaches = false ∧
    gpgq_inv stEx (0, 1) 0 0 = Except.error () ∧
    correct stEx dataEx (0, 1) = Except.error () ∧
    (iterate stEx dataEx modelEx).1.hasInvCaches = true :=
  claim_C9 tEx solveEx 1 1 0 InitValue.one (0, 1) 0 0 dataEx modelEx ⟨0, by decide⟩

/-- Claim C10: for every baseline `pq` and polarization pair `(i,j)`, if
`(pq[0],i)` or `(pq[1],j)` is not in the gain-key set, `gpgq` and `gpgq_inv`
substitute the all-ones unity array for the missing gain — each one-sided
case is stated separately, with the other side's gain left as its dictionary
lookup (`lookupGain`, respectively its regularized inverse `gp_inv`).
Consequently, on a baseline neither of whose antennas carries any gain key,
`corrupt` returns the model unchanged and `correct` succeeds, treating the
gains as unity (scaling the data by `1/(1+reg) * conj(1/(1+reg))`).  The
hypothesis `hu` states that the `_unity` member holds ones, which the
constructor establishes except through the dictionary-initialization
aliasing defect recorded at C5. -/
theorem claim_C10 {n : ℕ} {A : Type} [DecidableEq A] {t : Tiling n}
    (st : GState t A) (data model : VisMap t A) (pq : A × A)
    (hu : st.unity = fun _ => 1) :
    (∀ i j : Fin 2, (pq.1, i) ∉ st.parms →
      gpgq st pq i j =
        tile_gain t (fun k => (1 : Cplx) * Cplx.conj (lookupGain st (pq.2, j) k))) ∧
    (∀ i j : Fin 2, (pq.2, j) ∉ st.parms →
      gpgq st pq i j =
        tile_gain t (fun k => lookupGain st (pq.1, i) k * Cplx.conj 1)) ∧
    (∀ i j : Fin 2, (pq.1, i) ∉ st.parms →
      gpgq_inv_arr st pq i j = tile_gain t (fun k =>
        Cplx.inv (1 + Cplx.ofQ st.regularization_factor) *
          Cplx.conj (gp_inv st (pq.2, j) k))) ∧
    (∀ i j : Fin 2, (pq.2, j) ∉ st.parms →
      gpgq_inv_arr st pq i j = tile_gain t (fun k =>
        gp_inv st (pq.1, i) k *
          Cplx.conj (Cplx.inv (1 + Cplx.ofQ st.regularization_factor)))) ∧
    ((∀ i : Fin 2, (pq.1, i) ∉ st.parms) → (∀ j : Fin 2, (pq.2, j) ∉ st.parms) →
      (∀ (c : Fin 4) (m : DArr t), getVis model pq c = some m →
        corrupt st model pq c = some m) ∧
      (st.hasInvCaches = true → ∃ f, correct st data pq = Except.ok f ∧
        ∀ (c : Fin 4) (d : DArr t), getVis data pq c = some d →
          f c = some (fun a => d a *
            (Cplx.inv (1 + Cplx.ofQ st.regularization_factor) *
              Cplx.conj (Cplx.inv (1 + Cplx.ofQ st.regularization_factor)))))) := by
  have hlm : ∀ pp : A × Fin 2, pp ∉ st.parms →
      lookupGain st pp = fun _ => (1 : Cplx) := by
    intro pp hpp
    unfold lookupGain
    rw [if_neg hpp, hu]
  have hpinv : ∀ pp : A × Fin 2, pp ∉ st.parms →
      gp_inv st pp = fun _ => Cplx.inv (1 + Cplx.ofQ st.regularization_factor) := by
    intro pp hpp
    funext k
    unfold gp_inv
    rw [hlm pp hpp]
  refine ⟨?_, ?_, ?_, ?_, ?_⟩
  · intro i j hmi
    unfold gpgq
    rw [hlm _ hmi]
  · intro i j hmj
    unfold gpgq
    rw [hlm _ hmj]
  · intro i j hmi
    unfold gpgq_inv_arr
    rw [hpinv _ hmi]
  · intro i j hmj
    unfold gpgq_inv_arr
    rw [hpinv _ hmj]
  · intro hall1 hall2
    have hg : ∀ i j : Fin 2, gpgq st pq i j = tile_gain t (fun _ => 1) := by
      intro i j
      have harg : (fun k : GIdx t =>
          lookupGain st (pq.1, i) k * Cplx.conj (lookupGain st (pq.2, j) k)) =
          fun _ => (1 : Cplx) := by
        rw [hlm _ (hall1 i), hlm _ (hall2 j)]
        funext k
        show (1 : Cplx) * Cplx.conj 1 = 1
        rw [Cplx.conj_one, mul_one]
      unfold gpgq
      rw [harg]
    have hgi : ∀ i j : Fin 2, gpgq_inv_arr st pq i j = tile_gain t (fun _ =>
        Cplx.inv (1 + Cplx.ofQ st.regularization_factor) *
          Cplx.conj (Cplx.inv (1 + Cplx.ofQ st.regularization_factor))) := by
      intro i j
      unfold gpgq_inv_arr
      rw [hpinv _ (hall1 i), hpinv _ (hall2 j)]
    refine ⟨?_, ?_⟩
    · intro c m hm
      unfold corrupt
      rw [hm, hg (IJ2x2 c).1 (IJ2x2 c).2]
      show some (untile_data t (fun k mt =>
          tile_data t m k mt * tile_gain t (fun _ => (1 : Cplx)) k mt)) = some m
      have hcollapse : (fun (k : GIdx t) (mt : TIdx t) =>
          tile_data t m k mt * tile_gain t (fun _ => (1 : Cplx)) k mt) =
          tile_data t (fun a => m a * 1) := rfl
      rw [hcollapse, untile_tile]
      congr 1
      funext a
      rw [mul_one]
    · intro hc
      unfold correct
      rw [if_pos hc]
      refine ⟨_, rfl, ?_⟩
      intro c d hd
      show (match getVis data pq c with
        | none => none
        | some d2 => some (untile_data t (fun k mt =>
            tile_data t d2 k mt *
              gpgq_inv_arr st pq (IJ2x2 c).1 (IJ2x2 c).2 k mt))) = _
      rw [hd, hgi (IJ2x2 c).1 (IJ2x2 c).2]
      show some (untile_data t (fun k mt =>
          tile_data t d k mt * tile_gain t (fun _ =>
            Cplx.inv (1 + Cplx.ofQ st.regularization_factor) *
              Cplx.conj (Cplx.inv (1 + Cplx.ofQ st.regularization_factor))) k mt)) = _
      have hcollapse : (fun (k : GIdx t) (mt : TIdx t) =>
          tile_data t d k mt * tile_gain t (fun _ =>
            Cplx.inv (1 + Cplx.ofQ st.regularization_factor) *
              Cplx.conj (Cplx.inv (1 + Cplx.ofQ st.regularization_factor))) k mt) =
          tile_data t (fun a => d a *
            (Cplx.inv (1 + Cplx.ofQ st.regularization_factor) *
              Cplx.conj (Cplx.inv (1 + Cplx.ofQ st.regularization_factor)))) := rfl
      rw [hcollapse, untile_tile]


/-- Data holding the baseline `(2,2)` between antennas absent from every
solvable baseline. -/
def data10 : VisMap tEx (Fin 3) := fun pq => if pq = (2, 2) then some visOnes else none

theorem claim_C10_witness :
    stExIter.unity = (fun _ => 1) ∧
    ((2 : Fin 3), (0 : Fin 2)) ∉ stExIter.parms ∧
    ((1 : Fin 3), (0 : Fin 2)) ∈ stExIter.parms ∧
    gpgq stExIter (2, 1) 0 0 =
      tile_gain tEx (fun k => (1 : Cplx) * Cplx.conj (lookupGain stExIter (1, 0) k)) ∧
    gpgq_inv_arr stExIter (2, 1) 0 0 = tile_gain tEx (fun k =>
      Cplx.inv (1 + Cplx.ofQ stExIter.regularization_factor) *
        Cplx.conj (gp_inv stExIter (1, 0) k)) ∧
    corrupt stExIter data10 (2, 2) 0 = some (fun _ => 1) ∧
    (∃ f, correct stExIter data10 (2, 2) = Except.ok f ∧
      f 0 = some (fun a => (fun _ => (1 : Cplx)) a *
        (Cplx.inv (1 + Cplx.ofQ stExIter.regularization_factor) *
          Cplx.conj (Cplx.inv (1 + Cplx.ofQ stExIter.regularization_factor))))) := by
  have hmix := claim_C10 stExIter data10 data10 (2, 1) (by decide)
  have hboth := (claim_C10 stExIter data10 data10 (2, 2) (by decide)).2.2.2.2
    (by decide) (by decide)
  refine ⟨by decide, by decide, by decide,
    hmix.1 0 0 (by decide), hmix.2.2.1 0 0 (by decide),
    hboth.1 0 (fun _ => 1) (by decide), ?_⟩
  obtain ⟨f, hf, hfc⟩ := hboth.2 rfl
  exact ⟨f, hf, hfc 0 (fun _ => 1) (by decide)⟩
